import Mathlib

/-!
Verification of the ddcbacklight brightness CLI (src/main.rs) against its
natural-language specification.

The program core is embedded shallowly:

* Machine integers are modelled as `Nat`/`Int`; the `u8 -> u16` register
  reconstruction and the `i16` clamp arithmetic of the source are exact in
  this model (wrapping is made explicit where `i16` addition can overflow).
* The `f32` percentage arithmetic of lines 170, 178 and 193 of main.rs is
  modelled bit-exactly over the rationals: `f32ofRat` rounds a rational to
  the nearest IEEE-754 binary32 value (round to nearest, ties to even),
  which on the ranges this program reaches (all quantities lie far inside
  the normal range and below 2^23) is precisely what the hardware
  computes.  The `u16 -> f32` and `i16 -> f32` operand conversions are
  exact because every operand is an integer of magnitude below 2^24, so
  only the division and the multiplication round.  Division of a positive
  quantity by a zero maximum is modelled by its IEEE-754 outcome: infinity
  (current > 0) or NaN (current = 0), which Rust's saturating casts turn
  into the integer type's maximum respectively 0.
* The sysfs walk of `get_i2c_dev_by_output` is modelled by passing the
  relevant directory observations as explicit data (`OutputDir`,
  `DrmTree`); process exits and panics of the source become values of the
  error type `ResolveErr`, named after the spec's error taxonomy.
* Strings are modelled as `List Char`.
-/

/-! ## Exact binary32 rounding, computed over ℕ/ℤ

The two float expressions of main.rs both have the shape
`x / y * k` with every operand an integer that is exactly representable
in f32.  Such an expression performs exactly two roundings (one for the
division, one for the multiplication), each to a 24-bit significand with
round-to-nearest-ties-to-even.  The functions below compute those two
roundings bit-exactly using only natural-number arithmetic, so that the
kernel can evaluate them on concrete inputs; the accompanying lemmas
relate them to exact rational arithmetic.  Exponent overflow and
subnormals are not modelled: every quantity this program reaches lies
far inside the binary32 normal range. -/

/-- Fuel-driven binary logarithm on ℕ: `log2fuel fuel n` is the floor of
log2 of `n` whenever `n ≤ fuel` and `1 ≤ n`. -/
def log2fuel : ℕ → ℕ → ℕ
  | 0, _ => 0
  | fuel + 1, n => if n ≤ 1 then 0 else log2fuel fuel (n / 2) + 1

/-- Floor of the binary logarithm of a positive natural number. -/
def natLog2 (n : ℕ) : ℕ := log2fuel n n

/-- Round the fraction `A / B` to the nearest natural number, ties to
even (the IEEE-754 default rounding). -/
def rheNat (A B : ℕ) : ℕ :=
  let d := A / B
  let r := A % B
  if 2 * r < B then d
  else if B < 2 * r then d + 1
  else if d % 2 = 0 then d else d + 1

/-- Binary exponent of the positive fraction `a / b`: the unique `e`
with `2 ^ e ≤ a / b < 2 ^ (e + 1)`, computed from the bit lengths of
numerator and denominator. -/
def fracExp (a b : ℕ) : ℤ :=
  let e0 : ℤ := (natLog2 a : ℤ) - (natLog2 b : ℤ)
  let ge : Bool :=
    if 0 ≤ e0 then Nat.ble (b * 2 ^ e0.toNat) a else Nat.ble b (a * 2 ^ (-e0).toNat)
  if ge then e0 else e0 - 1

/-- Significand of the binary32 rounding of the positive fraction
`a / b`: the fraction is scaled by `2 ^ (23 - fracExp a b)` into
`[2 ^ 23, 2 ^ 24)` and rounded to the nearest integer, ties to even.
The rounded f32 value is `f32sig a b * 2 ^ (fracExp a b - 23)` (a
significand of `2 ^ 24`, reached when rounding carries over, still
denotes the correct value). -/
def f32sig (a b : ℕ) : ℕ :=
  let e := fracExp a b
  rheNat (a * 2 ^ ((23 : ℤ) - e).toNat) (b * 2 ^ (e - (23 : ℤ)).toNat)

/-- `⌊S * 2 ^ T + 1 / 2⌋` for a dyadic value, over ℕ: `f32::round`
(round half away from zero, on nonnegative values `⌊x + 1/2⌋`) of the
f32 value with significand `S` and scale `T`. -/
def floor_half_up_dyadic (S : ℕ) (T : ℤ) : ℕ :=
  if 0 ≤ T then S * 2 ^ T.toNat
  else (2 * S + 2 ^ (-T).toNat) / (2 ^ (-T).toNat * 2)

/-- The complete float expression `(a as f32 / b as f32 * k as f32)
.round()` of main.rs, bit-exactly: round `a / b` to f32, multiply the
significand by the exactly representable integer `k`, round the product
to f32 again (as the rounding of the integer `f32sig a b * k`, the
power-of-two scale being exact), and round half away from zero to an
integer.  A zero numerator or factor short-circuits to 0, the exact
value f32 computes there. -/
def f32mul_round (a b k : ℕ) : ℕ :=
  if a = 0 || k = 0 then 0
  else
    let N := f32sig a b * k
    floor_half_up_dyadic (f32sig N 1) (fracExp N 1 + fracExp a b - 46)

/-- Relative error bound of one binary32 rounding, `2 ^ (-24)`. -/
def fErr : ℚ := 1 / 2 ^ 24

/-! ## Embedding of src/main.rs -/

/-- Error taxonomy of the spec (section 7) for the resolver; the source
realises these as `std::process::exit(1)` and panics. -/
inductive ResolveErr where
  | UnsupportedOutput
  | OutputNotFound
  | DeviceNotFound
deriving DecidableEq, Repr

deriving instance DecidableEq for Except

/-- Observations of one DRM output directory that the resolver can make:
its immediate child entry names in iteration order, whether the `ddc`
entry exists, the final path component of the `ddc` symlink target when
`ddc` is a readable symlink with a file name, whether `ddc/i2c-dev`
exists, and the entries of `ddc/i2c-dev` in iteration order. -/
structure OutputDir where
  entries : List (List Char)
  ddcExists : Bool
  ddcLinkTarget : Option (List Char)
  i2cDevExists : Bool
  i2cDevEntries : List (List Char)
deriving DecidableEq, Repr

/-- The `/sys/class/drm` directory: entry names paired with the
corresponding output directory observations. -/
def DrmTree := List (List Char × OutputDir)

/-- Embedding of Rust `str::starts_with`. -/
def starts_with (s p : List Char) : Bool := p.isPrefixOf s

/-- Embedding of Rust `str::ends_with`. -/
def ends_with (s p : List Char) : Bool := p.reverse.isPrefixOf s.reverse

/-- main.rs lines 56/71/84: the device path synthesized from an i2c
entry name by prepending the literal `/dev/`. -/
def dev_path (name : List Char) : List Char := "/dev/".data ++ name

/-- main.rs lines 51-62, the AMD child-directory scan: the first child of
the output directory whose name begins with `i2c-` yields the device. -/
def amd_scan (d : OutputDir) : Option (List Char) :=
  (d.entries.find? (fun n => starts_with n "i2c-".data)).map dev_path

/-- main.rs lines 64-76, the AMD `ddc` symlink strategy: if `ddc` exists
and is a readable symlink whose target has a final component, that
component names the device. -/
def amd_symlink (d : OutputDir) : Option (List Char) :=
  if d.ddcExists then d.ddcLinkTarget.map dev_path else none

/-- main.rs lines 78-89, the Intel strategy: if `ddc/i2c-dev` exists, its
first entry names the device. -/
def intel_subdir (d : OutputDir) : Option (List Char) :=
  if d.i2cDevExists then d.i2cDevEntries.head?.map dev_path else none

/-- main.rs lines 50-91: the three vendor strategies tried in source
order with early return; the final panic is `DeviceNotFound`. -/
def try_strategies (d : OutputDir) : Except ResolveErr (List Char) :=
  match amd_scan d with
  | some p => .ok p
  | none =>
    match amd_symlink d with
    | some p => .ok p
    | none =>
      match intel_subdir d with
      | some p => .ok p
      | none => .error .DeviceNotFound

/-- main.rs lines 32-92, `get_i2c_dev_by_output`: reject embedded panels
(`eDP` name, exit(1), here `UnsupportedOutput`) before any directory is
read, locate the output directory by suffix match in `/sys/class/drm`
(panic, here `OutputNotFound`, when absent), then run the strategies. -/
def get_i2c_dev_by_output (output : List Char) (drm : DrmTree) :
    Except ResolveErr (List Char) :=
  if starts_with output "eDP".data then
    .error .UnsupportedOutput
  else
    match drm.find? (fun e => ends_with e.1 output) with
    | none => .error .OutputNotFound
    | some e => try_strategies e.2

/-- main.rs lines 154-161: an explicit `--i2c-path` argument bypasses the
compositor query and the resolver; otherwise the focused output name is
resolved.  The compositor answer is passed in as `active_output`. -/
def select_i2c_path (i2c_path_arg : Option (List Char))
    (active_output : List Char) (drm : DrmTree) :
    Except ResolveErr (List Char) :=
  match i2c_path_arg with
  | some p => .ok p
  | none => get_i2c_dev_by_output active_output drm

/-- main.rs lines 17-19, `value_to_current_and_max`: rebuild the two
16-bit quantities from the four 8-bit VCP reply fields (`u8 as u16 * 256
+ u8 as u16` cannot overflow `u16`). -/
def value_to_current_and_max (sh sl mh ml : ℕ) : ℕ × ℕ :=
  (sh * 256 + sl, mh * 256 + ml)

/-- main.rs line 170: `(current as f32 / max as f32 * 100.0).round() as
u16`.  The `as u16` cast saturates at 65535.  A zero maximum gives NaN
(`c = 0`, cast to 0) or infinity (`c > 0`, cast to 65535). -/
def percent_u16 (c m : ℕ) : ℕ :=
  if m = 0 then (if c = 0 then 0 else 65535)
  else min (f32mul_round c m 100) 65535

/-- main.rs line 178: the same computation with `as i16`, saturating at
32767 (the computed value is never negative, so the lower saturation
bound of the cast is never reached). -/
def percent_i16 (c m : ℕ) : ℤ :=
  if m = 0 then (if c = 0 then 0 else 32767)
  else min (f32mul_round c m 100 : ℤ) 32767

/-- main.rs lines 166-171, the get-brightness command: read the VCP
reply, convert to a percentage, print it.  Total: no error path exists
between the monitor reply and the printed percentage. -/
def get_brightness (sh sl mh ml : ℕ) : ℕ :=
  let v := value_to_current_and_max sh sl mh ml
  percent_u16 v.1 v.2

/-- Wrap an integer into the range of `i16` (two's complement). -/
def wrapI16 (z : ℤ) : ℤ := (z + 32768) % 65536 - 32768

/-- Embedding of Rust `i16::clamp(0, 100)`. -/
def clamp_0_100 (z : ℤ) : ℤ := max 0 (min 100 z)

/-- main.rs lines 184-185: relative command, `current_percentage + change`
(i16 addition, wrapping made explicit) followed by `.clamp(0, 100)`. -/
def relative_target (current change : ℤ) : ℤ :=
  clamp_0_100 (wrapI16 (current + change))

/-- Digit-string accumulator of `str::parse::<i16>`: fails on any
non-digit character. -/
def parse_digits (acc : ℕ) : List Char → Option ℕ
  | [] => some acc
  | ch :: rest =>
    if ch.isDigit then parse_digits (acc * 10 + (ch.toNat - 48)) rest
    else none

/-- Embedding of Rust `str::parse::<i16>`: optional sign, one or more
digits, value within `[-32768, 32767]`; every other input is an error
(`none`), which main.rs turns into a process abort via `.expect(..)`. -/
def parse_i16 (s : List Char) : Option ℤ :=
  let signRest : ℤ × List Char :=
    match s with
    | '+' :: r => (1, r)
    | '-' :: r => (-1, r)
    | r => (1, r)
  match signRest.2 with
  | [] => none
  | _ :: _ =>
    match parse_digits 0 signRest.2 with
    | none => none
    | some n =>
      let v := signRest.1 * (n : ℤ)
      if -32768 ≤ v ∧ v ≤ 32767 then some v else none

/-- main.rs lines 181-190: parse the set-brightness token; a leading `+`
or `-` selects the relative branch (delta added to the current
percentage, then clamped), otherwise the absolute branch (value clamped
directly). -/
def target_percentage (value_str : List Char) (current_percentage : ℤ) :
    Option ℤ :=
  if starts_with value_str "+".data || starts_with value_str "-".data then
    (parse_i16 value_str).map (fun change =>
      relative_target current_percentage change)
  else
    (parse_i16 value_str).map clamp_0_100

/-- main.rs line 193: `((target_percentage as f32 / 100.0) * max_value as
f32).round() as u16`.  For the nonnegative targets produced by the clamp
this is round half away from zero of the exact f32 chain, saturated at
65535; a negative operand would round to a nonpositive value and
saturate to 0 (the call site only ever passes clamped values). -/
def absolute_value (tp : ℤ) (m : ℕ) : ℕ :=
  if tp < 0 then 0
  else min (f32mul_round tp.toNat 100 m) 65535

/-- main.rs lines 173-195, the set-brightness command up to the raw value
handed to `set_vcp_feature`: read the VCP reply, compute the current
percentage, resolve the token to a target percentage, convert it to a
raw register value.  `none` models the parse abort. -/
def set_brightness_raw (value_str : List Char) (sh sl mh ml : ℕ) :
    Option ℕ :=
  let v := value_to_current_and_max sh sl mh ml
  (target_percentage value_str (percent_i16 v.1 v.2)).map
    (fun tp => absolute_value tp v.2)

/-- Round half away from zero of a nonnegative rational, the value of
`f32::round` on exact nonnegative inputs; used to state the spec's
`round(current / maximum * 100)` formula over ℚ. -/
def specRound (q : ℚ) : ℤ := ⌊q + 1 / 2⌋

/-- Modelled from the spec (section 4.3): `toPercentage` as the spec
words it, `round(current / maximum * 100)` over exact arithmetic,
defined for `maximum > 0`. -/
def spec_toPercentage (c m : ℕ) : ℤ := specRound ((c : ℚ) / (m : ℚ) * 100)

/-! ## Arithmetic facts about the binary32 model -/

/-- The fuel-driven logarithm is the floor of log2 when the fuel
suffices. -/
theorem log2fuel_spec :
    ∀ fuel n, 1 ≤ n → n ≤ fuel →
      2 ^ log2fuel fuel n ≤ n ∧ n < 2 ^ (log2fuel fuel n + 1) := by
  intro fuel
  induction fuel with
  | zero => intro n h1 h2; omega
  | succ fuel ih =>
    intro n h1 h2
    by_cases hn : n ≤ 1
    · simp only [log2fuel, if_pos hn]
      omega
    · simp only [log2fuel, if_neg hn]
      have hrec := ih (n / 2) (by omega) (by omega)
      obtain ⟨hlo, hhi⟩ := hrec
      constructor
      · rw [pow_succ]
        omega
      · rw [pow_succ]
        omega

/-- Sandwich property of `natLog2`. -/
theorem natLog2_spec (n : ℕ) (h : 1 ≤ n) :
    2 ^ natLog2 n ≤ n ∧ n < 2 ^ (natLog2 n + 1) :=
  log2fuel_spec n n h le_rfl

/-- Round-to-nearest-ties-even of `A / B` differs from the exact
fraction by at most one half. -/
theorem rheNat_bounds (A B : ℕ) (hB : 0 < B) :
    |(rheNat A B : ℚ) - (A : ℚ) / B| ≤ 1 / 2 := by
  have hB' : (0 : ℚ) < (B : ℚ) := by exact_mod_cast hB
  have hmod : B * (A / B) + A % B = A := Nat.div_add_mod A B
  have hlt : A % B < B := Nat.mod_lt _ hB
  have hc : (B : ℚ) * ((A / B : ℕ) : ℚ) + ((A % B : ℕ) : ℚ) = (A : ℚ) := by
    exact_mod_cast congrArg (fun x : ℕ => (x : ℚ)) hmod
  have hq : (A : ℚ) / B = (A / B : ℕ) + ((A % B : ℕ) : ℚ) / B := by
    rw [div_eq_iff (ne_of_gt hB'), add_mul, div_mul_cancel₀ _ (ne_of_gt hB')]
    linarith
  have hr0 : (0 : ℚ) ≤ ((A % B : ℕ) : ℚ) / B := by positivity
  have hr1 : ((A % B : ℕ) : ℚ) / B < 1 := by
    rw [div_lt_one hB']; exact_mod_cast hlt
  unfold rheNat
  rw [abs_le]
  by_cases hc1 : 2 * (A % B) < B
  · have h2 : (2 : ℚ) * ((A % B : ℕ) : ℚ) < (B : ℚ) := by exact_mod_cast hc1
    have hhalf : ((A % B : ℕ) : ℚ) / B < 1 / 2 := by
      rw [div_lt_div_iff hB' (by norm_num : (0 : ℚ) < 2)]
      linarith
    simp only [if_pos hc1]
    rw [hq]
    constructor <;> linarith
  · by_cases hc2 : B < 2 * (A % B)
    · have h2 : (B : ℚ) < 2 * ((A % B : ℕ) : ℚ) := by exact_mod_cast hc2
      have hhalf : 1 / 2 < ((A % B : ℕ) : ℚ) / B := by
        rw [div_lt_div_iff (by norm_num : (0 : ℚ) < 2) hB']
        linarith
      simp only [if_neg hc1, if_pos hc2]
      rw [hq]
      push_cast
      constructor <;> linarith
    · have h2 : (2 : ℚ) * ((A % B : ℕ) : ℚ) = (B : ℚ) := by
        exact_mod_cast congrArg (fun x : ℕ => (x : ℚ)) (by omega : 2 * (A % B) = B)
      have heq : ((A % B : ℕ) : ℚ) / B = 1 / 2 := by
        rw [div_eq_div_iff (ne_of_gt hB') (two_ne_zero)]
        linarith
      simp only [if_neg hc1, if_neg hc2]
      by_cases hpar : A / B % 2 = 0
      · rw [if_pos hpar, hq, heq]
        constructor <;> linarith
      · rw [if_neg hpar, hq, heq]
        push_cast
        constructor <;> linarith

/-- Casting a natural power of two into ℚ as an integer power. -/
theorem natCast_two_pow (x : ℕ) : ((2 ^ x : ℕ) : ℚ) = (2 : ℚ) ^ (x : ℤ) := by
  push_cast
  exact (zpow_natCast 2 x).symm

/-- The computed binary exponent brackets the fraction:
`2 ^ fracExp a b ≤ a / b < 2 ^ (fracExp a b + 1)`. -/
theorem fracExp_spec (a b : ℕ) (ha : 0 < a) (hb : 0 < b) :
    (2 : ℚ) ^ fracExp a b ≤ (a : ℚ) / b ∧ (a : ℚ) / b < 2 ^ (fracExp a b + 1) := by
  have hb' : (0 : ℚ) < (b : ℚ) := by exact_mod_cast hb
  have ha' : (0 : ℚ) < (a : ℚ) := by exact_mod_cast ha
  obtain ⟨hla1, hla2⟩ := natLog2_spec a ha
  obtain ⟨hlb1, hlb2⟩ := natLog2_spec b hb
  set la := natLog2 a with hlaDef
  set lb := natLog2 b with hlbDef
  have hpa1 : ((2 ^ la : ℕ) : ℚ) ≤ a := by exact_mod_cast hla1
  have hpa2 : (a : ℚ) < ((2 ^ (la + 1) : ℕ) : ℚ) := by exact_mod_cast hla2
  have hpb1 : ((2 ^ lb : ℕ) : ℚ) ≤ b := by exact_mod_cast hlb1
  have hpb2 : (b : ℚ) < ((2 ^ (lb + 1) : ℕ) : ℚ) := by exact_mod_cast hlb2
  have hF1 : (2 : ℚ) ^ ((la : ℤ) - lb - 1) < (a : ℚ) / b := by
    calc (2 : ℚ) ^ ((la : ℤ) - lb - 1)
        = ((2 ^ la : ℕ) : ℚ) / ((2 ^ (lb + 1) : ℕ) : ℚ) := by
          rw [natCast_two_pow, natCast_two_pow, ← zpow_sub₀ (two_ne_zero)]
          congr 1
          omega
      _ < ((2 ^ la : ℕ) : ℚ) / (b : ℚ) := by
          apply div_lt_div_of_pos_left (by positivity) hb' hpb2
      _ ≤ (a : ℚ) / (b : ℚ) := by gcongr
  have hF2 : (a : ℚ) / b < (2 : ℚ) ^ ((la : ℤ) - lb + 1) := by
    calc (a : ℚ) / b
        ≤ (a : ℚ) / ((2 ^ lb : ℕ) : ℚ) := by gcongr
      _ < ((2 ^ (la + 1) : ℕ) : ℚ) / ((2 ^ lb : ℕ) : ℚ) := by gcongr
      _ = (2 : ℚ) ^ ((la : ℤ) - lb + 1) := by
          rw [natCast_two_pow, natCast_two_pow, ← zpow_sub₀ (two_ne_zero)]
          congr 1
          omega
  have hble : ∀ x y : ℕ, Nat.ble x y = true ↔ ((x : ℚ) ≤ (y : ℚ)) := by
    intro x y
    rw [Nat.ble_eq]
    exact (Nat.cast_le (α := ℚ)).symm
  have hunfold : fracExp a b =
      if (if 0 ≤ (la : ℤ) - lb then Nat.ble (b * 2 ^ ((la : ℤ) - lb).toNat) a
          else Nat.ble b (a * 2 ^ (-((la : ℤ) - lb)).toNat)) = true
      then (la : ℤ) - lb else (la : ℤ) - lb - 1 := rfl
  set e0 : ℤ := (la : ℤ) - (lb : ℤ) with he0Def
  by_cases h0 : 0 ≤ e0
  · have hcast : ((2 ^ e0.toNat : ℕ) : ℚ) = (2 : ℚ) ^ e0 := by
      rw [natCast_two_pow, Int.toNat_of_nonneg h0]
    rw [hunfold, if_pos h0]
    by_cases hb2 : Nat.ble (b * 2 ^ e0.toNat) a = true
    · have hq : (b : ℚ) * (2 : ℚ) ^ e0 ≤ (a : ℚ) := by
        have h := (hble _ _).mp hb2
        rw [Nat.cast_mul, hcast] at h
        linarith
      rw [if_pos hb2]
      refine ⟨?_, hF2⟩
      rw [le_div_iff hb']
      linarith
    · have hq : (a : ℚ) < (b : ℚ) * (2 : ℚ) ^ e0 := by
        have hlt : a < b * 2 ^ e0.toNat := by
          rcases Nat.lt_or_ge a (b * 2 ^ e0.toNat) with h | h
          · exact h
          · exact absurd (Nat.ble_eq.mpr h) hb2
        have hlt2 : (a : ℚ) < ((b * 2 ^ e0.toNat : ℕ) : ℚ) := by exact_mod_cast hlt
        rw [Nat.cast_mul, hcast] at hlt2
        linarith
      rw [if_neg hb2]
      refine ⟨le_of_lt hF1, ?_⟩
      rw [div_lt_iff hb', (by ring : e0 - 1 + 1 = e0)]
      linarith
  · have hneg : (0 : ℤ) ≤ -e0 := by omega
    have hcast : ((2 ^ (-e0).toNat : ℕ) : ℚ) = (2 : ℚ) ^ (-e0) := by
      rw [natCast_two_pow, Int.toNat_of_nonneg hneg]
    have hXY : (2 : ℚ) ^ e0 * (2 : ℚ) ^ (-e0) = 1 := by
      rw [← zpow_add₀ (two_ne_zero)]
      norm_num
    have hX : (0 : ℚ) < (2 : ℚ) ^ e0 := by positivity
    have hY : (0 : ℚ) < (2 : ℚ) ^ (-e0) := by positivity
    rw [hunfold, if_neg h0]
    by_cases hb2 : Nat.ble b (a * 2 ^ (-e0).toNat) = true
    · have hq : (b : ℚ) ≤ (a : ℚ) * (2 : ℚ) ^ (-e0) := by
        have h := (hble _ _).mp hb2
        rw [Nat.cast_mul, hcast] at h
        linarith
      rw [if_pos hb2]
      refine ⟨?_, hF2⟩
      rw [le_div_iff hb']
      nlinarith
    · have hq : (a : ℚ) * (2 : ℚ) ^ (-e0) < (b : ℚ) := by
        have hlt : a * 2 ^ (-e0).toNat < b := by
          rcases Nat.lt_or_ge (a * 2 ^ (-e0).toNat) b with h | h
          · exact h
          · exact absurd (Nat.ble_eq.mpr h) hb2
        have hlt2 : ((a * 2 ^ (-e0).toNat : ℕ) : ℚ) < (b : ℚ) := by exact_mod_cast hlt
        rw [Nat.cast_mul, hcast] at hlt2
        linarith
      rw [if_neg hb2]
      refine ⟨le_of_lt hF1, ?_⟩
      rw [div_lt_iff hb', (by ring : e0 - 1 + 1 = e0)]
      nlinarith

/-- One binary32 rounding of the fraction `a / b` is within relative
error `fErr = 2 ^ (-24)` of the exact fraction. -/
theorem f32sig_err (a b : ℕ) (ha : 0 < a) (hb : 0 < b) :
    |(f32sig a b : ℚ) * 2 ^ (fracExp a b - 23) - (a : ℚ) / b| ≤
      (a : ℚ) / b * fErr := by
  have ha' : (0 : ℚ) < (a : ℚ) := by exact_mod_cast ha
  have hb' : (0 : ℚ) < (b : ℚ) := by exact_mod_cast hb
  obtain ⟨he1, he2⟩ := fracExp_spec a b ha hb
  set e := fracExp a b with heDef
  set A := a * 2 ^ ((23 : ℤ) - e).toNat with hADef
  set B := b * 2 ^ (e - (23 : ℤ)).toNat with hBDef
  have hBpos : 0 < B := by positivity
  have hsig : f32sig a b = rheNat A B := rfl
  have hAB : (A : ℚ) / B = (a : ℚ) / b * 2 ^ ((23 : ℤ) - e) := by
    rcases le_or_lt e 23 with h | h
    · have h1 : (e - (23 : ℤ)).toNat = 0 := by omega
      have h2 : (((23 : ℤ) - e).toNat : ℤ) = 23 - e := Int.toNat_of_nonneg (by omega)
      rw [hADef, hBDef, h1]
      push_cast
      rw [← zpow_natCast (2 : ℚ) ((23 - e).toNat), h2]
      field_simp
    · have h1 : ((23 : ℤ) - e).toNat = 0 := by omega
      have h2 : ((e - (23 : ℤ)).toNat : ℤ) = e - 23 := Int.toNat_of_nonneg (by omega)
      rw [hADef, hBDef, h1]
      push_cast
      rw [← zpow_natCast (2 : ℚ) ((e - 23).toNat), h2]
      rw [show (23 : ℤ) - e = -(e - 23) by ring, zpow_neg, mul_one]
      have hne : ((2 : ℚ) ^ (e - 23)) ≠ 0 := by positivity
      field_simp
  have key := rheNat_bounds A B hBpos
  have hc : (0 : ℚ) < (2 : ℚ) ^ (e - 23) := by positivity
  have hcancel : (a : ℚ) / b * 2 ^ ((23 : ℤ) - e) * 2 ^ (e - 23) = (a : ℚ) / b := by
    rw [mul_assoc, ← zpow_add₀ (two_ne_zero : (2 : ℚ) ≠ 0)]
    have : (23 : ℤ) - e + (e - 23) = 0 := by ring
    rw [this, zpow_zero, mul_one]
  calc |(f32sig a b : ℚ) * 2 ^ (e - 23) - (a : ℚ) / b|
      = |((rheNat A B : ℚ) - (A : ℚ) / B) * 2 ^ (e - 23)| := by
        rw [sub_mul, hAB, hcancel, hsig]
    _ = |(rheNat A B : ℚ) - (A : ℚ) / B| * 2 ^ (e - 23) := by
        rw [abs_mul, abs_of_pos hc]
    _ ≤ 1 / 2 * 2 ^ (e - 23) := by
        exact mul_le_mul_of_nonneg_right key (le_of_lt hc)
    _ = 2 ^ e * (2 : ℚ) ^ (-24 : ℤ) := by
        rw [← zpow_add₀ (two_ne_zero : (2 : ℚ) ≠ 0)]
        have h12 : (1 / 2 : ℚ) = (2 : ℚ) ^ (-1 : ℤ) := by norm_num
        rw [h12, ← zpow_add₀ (two_ne_zero : (2 : ℚ) ≠ 0)]
        congr 1
        ring
    _ ≤ (a : ℚ) / b * fErr := by
        have hfe : (2 : ℚ) ^ (-24 : ℤ) = fErr := by
          rw [fErr]
          norm_num
        rw [hfe]
        have hfp : (0 : ℚ) < fErr := by rw [fErr]; norm_num
        exact mul_le_mul_of_nonneg_right he1 (le_of_lt hfp)

/-- The significand of a binary32 rounding of a positive fraction is
positive. -/
theorem f32sig_pos (a b : ℕ) (ha : 0 < a) (hb : 0 < b) : 0 < f32sig a b := by
  have ha' : (0 : ℚ) < (a : ℚ) := by exact_mod_cast ha
  have hb' : (0 : ℚ) < (b : ℚ) := by exact_mod_cast hb
  have hq : (0 : ℚ) < (a : ℚ) / b := by positivity
  have herr := f32sig_err a b ha hb
  have hfe : fErr < 1 := by rw [fErr]; norm_num
  by_contra hcon
  push_neg at hcon
  have h0 : f32sig a b = 0 := by omega
  rw [h0] at herr
  simp only [Nat.cast_zero, zero_mul, zero_sub, abs_neg] at herr
  rw [abs_of_pos hq] at herr
  nlinarith

/-- `floor_half_up_dyadic` computes `⌊S * 2 ^ T + 1 / 2⌋`. -/
theorem floor_half_up_dyadic_eq (S : ℕ) (T : ℤ) :
    (floor_half_up_dyadic S T : ℤ) = ⌊(S : ℚ) * 2 ^ T + 1 / 2⌋ := by
  have hhalf : ⌊(1 / 2 : ℚ)⌋ = 0 := by
    rw [Int.floor_eq_zero_iff]
    constructor <;> norm_num
  unfold floor_half_up_dyadic
  by_cases h : 0 ≤ T
  · rw [if_pos h]
    have hx : (S : ℚ) * 2 ^ T = ((S * 2 ^ T.toNat : ℕ) : ℚ) := by
      push_cast
      rw [← zpow_natCast (2 : ℚ) T.toNat, Int.toNat_of_nonneg h]
    rw [hx, add_comm, Int.floor_add_nat, hhalf, zero_add]
  · rw [if_neg h]
    have hT : (0 : ℤ) ≤ -T := by omega
    set D := 2 ^ (-T).toNat with hD
    have hD0 : 0 < D := by positivity
    have hD0' : (0 : ℚ) < (D : ℚ) := by exact_mod_cast hD0
    have h2T : (2 : ℚ) ^ T = ((D : ℕ) : ℚ)⁻¹ := by
      have hDq : ((D : ℕ) : ℚ) = (2 : ℚ) ^ (-T) := by
        rw [hD]
        push_cast
        rw [← zpow_natCast (2 : ℚ) (-T).toNat, Int.toNat_of_nonneg hT]
      rw [hDq, ← zpow_neg, neg_neg]
    have hsum : (S : ℚ) * 2 ^ T + 1 / 2 =
        (((2 * S + D : ℕ) : ℤ) : ℚ) / ((D * 2 : ℕ) : ℚ) := by
      rw [h2T]
      push_cast
      field_simp
      ring
    rw [hsum, Rat.floor_intCast_div_natCast]
    push_cast [Int.ofNat_div]
    rfl

/-- The complete rounded float expression lies within two relative
rounding errors and one final half of the exact value `a / b * k`. -/
theorem f32mul_round_bounds (a b k : ℕ) (ha : 0 < a) (hb : 0 < b) (hk : 0 < k) :
    (a : ℚ) / b * k * (1 - fErr) ^ 2 - 1 / 2 ≤ (f32mul_round a b k : ℚ) ∧
    (f32mul_round a b k : ℚ) ≤ (a : ℚ) / b * k * (1 + fErr) ^ 2 + 1 / 2 := by
  have ha' : (0 : ℚ) < (a : ℚ) := by exact_mod_cast ha
  have hb' : (0 : ℚ) < (b : ℚ) := by exact_mod_cast hb
  have hk' : (0 : ℚ) < (k : ℚ) := by exact_mod_cast hk
  have hq : (0 : ℚ) < (a : ℚ) / b := by positivity
  have hfe0 : (0 : ℚ) < fErr := by rw [fErr]; norm_num
  have hfe1 : fErr < 1 := by rw [fErr]; norm_num
  -- first rounding
  have h1 := f32sig_err a b ha hb
  have hs1pos := f32sig_pos a b ha hb
  set e1 := fracExp a b with he1Def
  set s1 := f32sig a b with hs1Def
  set v1 : ℚ := (s1 : ℚ) * 2 ^ (e1 - 23) with hv1Def
  have hv1l : (a : ℚ) / b * (1 - fErr) ≤ v1 := by
    have h := (abs_le.mp h1).1
    linarith [h]
  have hv1u : v1 ≤ (a : ℚ) / b * (1 + fErr) := by
    have h := (abs_le.mp h1).2
    linarith [h]
  -- second rounding, of the integer N = s1 * k
  set N := s1 * k with hNDef
  have hN : 0 < N := Nat.mul_pos hs1pos hk
  have h2 := f32sig_err N 1 hN one_pos
  rw [Nat.cast_one, div_one] at h2
  set e2 := fracExp N 1 with he2Def
  set s2 := f32sig N 1 with hs2Def
  -- the program value
  have hval : f32mul_round a b k = floor_half_up_dyadic s2 (e2 + e1 - 46) := by
    have hcond : ¬((a = 0 || k = 0) = true) := by
      simp only [Bool.or_eq_true, decide_eq_true_eq]
      omega
    unfold f32mul_round
    rw [if_neg hcond]
  have hfloor : (f32mul_round a b k : ℤ) =
      ⌊(s2 : ℚ) * 2 ^ (e2 + e1 - 46) + 1 / 2⌋ := by
    rw [hval]
    exact floor_half_up_dyadic_eq s2 (e2 + e1 - 46)
  -- the exact f32 product value
  set P : ℚ := (s2 : ℚ) * 2 ^ (e2 + e1 - 46) with hPDef
  have hsplit : P = ((s2 : ℚ) * 2 ^ (e2 - 23)) * 2 ^ (e1 - 23) := by
    rw [hPDef, mul_assoc, ← zpow_add₀ (two_ne_zero : (2 : ℚ) ≠ 0)]
    congr 2
    ring
  have hc : (0 : ℚ) < (2 : ℚ) ^ (e1 - 23) := by positivity
  have hNc : (N : ℚ) * 2 ^ (e1 - 23) = v1 * k := by
    rw [hNDef, hv1Def]
    push_cast
    ring
  have hPl : v1 * k * (1 - fErr) ≤ P := by
    have hl := (abs_le.mp h2).1
    have := mul_le_mul_of_nonneg_right (by linarith : (N : ℚ) * (1 - fErr) ≤ (s2 : ℚ) * 2 ^ (e2 - 23)) (le_of_lt hc)
    rw [hsplit]
    calc v1 * k * (1 - fErr) = (N : ℚ) * (1 - fErr) * 2 ^ (e1 - 23) := by
          rw [← hNc]; ring
      _ ≤ (s2 : ℚ) * 2 ^ (e2 - 23) * 2 ^ (e1 - 23) := this
  have hPu : P ≤ v1 * k * (1 + fErr) := by
    have hu := (abs_le.mp h2).2
    have := mul_le_mul_of_nonneg_right (by linarith : (s2 : ℚ) * 2 ^ (e2 - 23) ≤ (N : ℚ) * (1 + fErr)) (le_of_lt hc)
    rw [hsplit]
    calc (s2 : ℚ) * 2 ^ (e2 - 23) * 2 ^ (e1 - 23) ≤ (N : ℚ) * (1 + fErr) * 2 ^ (e1 - 23) := this
      _ = v1 * k * (1 + fErr) := by rw [← hNc]; ring
  -- combine the two relative errors
  have hkf1 : (0 : ℚ) ≤ (k : ℚ) * (1 - fErr) :=
    mul_nonneg (le_of_lt hk') (by linarith)
  have hkf2 : (0 : ℚ) ≤ (k : ℚ) * (1 + fErr) :=
    mul_nonneg (le_of_lt hk') (by linarith)
  have hPl2 : (a : ℚ) / b * k * (1 - fErr) ^ 2 ≤ P := by
    have hmul := mul_le_mul_of_nonneg_right hv1l hkf1
    linarith [hmul, hPl]
  have hPu2 : P ≤ (a : ℚ) / b * k * (1 + fErr) ^ 2 := by
    have hmul := mul_le_mul_of_nonneg_right hv1u hkf2
    linarith [hmul, hPu]
  -- floor bracketing
  have hfl : ((f32mul_round a b k : ℤ) : ℚ) ≤ P + 1 / 2 := by
    rw [hfloor]
    exact Int.floor_le _
  have hfu : P + 1 / 2 - 1 < ((f32mul_round a b k : ℤ) : ℚ) := by
    rw [hfloor]
    exact Int.sub_one_lt_floor _
  push_cast at hfl hfu
  constructor
  · linarith
  · linarith

/-! ## Program-level helper lemmas -/

/-- The clamp of main.rs line 185/189 lands in `[0, 100]`. -/
theorem clamp_0_100_bounds (z : ℤ) : 0 ≤ clamp_0_100 z ∧ clamp_0_100 z ≤ 100 := by
  unfold clamp_0_100
  omega

/-- Every target percentage produced by the set-brightness parser is
clamped into `[0, 100]`. -/
theorem target_percentage_mem (s : List Char) (cp tp : ℤ)
    (h : target_percentage s cp = some tp) : 0 ≤ tp ∧ tp ≤ 100 := by
  unfold target_percentage at h
  split_ifs at h
  · obtain ⟨v, _, rfl⟩ := Option.map_eq_some'.mp h
    unfold relative_target
    exact clamp_0_100_bounds _
  · obtain ⟨v, _, rfl⟩ := Option.map_eq_some'.mp h
    exact clamp_0_100_bounds _

/-- A zero numerator short-circuits the float chain to zero. -/
theorem f32mul_round_zero_left (b k : ℕ) : f32mul_round 0 b k = 0 := by
  simp [f32mul_round]

/-- A zero factor short-circuits the float chain to zero. -/
theorem f32mul_round_zero_right (a b : ℕ) : f32mul_round a b 0 = 0 := by
  simp [f32mul_round]

/-! ## Claim theorems -/

/-- C1 counterexample: with maximum = 0 and current = 1 the percentage
computation does not fail at all: the infinite f32 quotient is saturated
by the casts to 65535 (get path, line 170) and 32767 (set path, line
178), and get-brightness prints 65535.  No `InvalidDeviceState` error
exists in the program: the computation is total. -/
theorem C1_cex :
    percent_u16 1 0 = 65535 ∧ percent_i16 1 0 = 32767 ∧
    get_brightness 0 1 0 0 = 65535 := by
  decide

/-- C1 amended: for maximum = 0 the percentage computation never fails;
the f32 division produces infinity (current > 0) or NaN (current = 0)
and the saturating casts turn these into 65535 / 32767 respectively 0.
A zero maximum is also not replaced by a default of 100: the result
differs from the percentage a maximum of 100 would give. -/
theorem C1_zero_max_saturates (c : ℕ) :
    percent_u16 c 0 = (if c = 0 then 0 else 65535) ∧
    percent_i16 c 0 = (if c = 0 then 0 else 32767) ∧
    (0 < c → c ≤ 100 → percent_u16 c 0 ≠ c) := by
  refine ⟨by simp [percent_u16], by simp [percent_i16], fun h1 h2 => ?_⟩
  have hc : c ≠ 0 := by omega
  simp [percent_u16, hc]
  omega

/-- C1 witness: the amended statement applied at current = 5. -/
theorem C1_witness : percent_u16 5 0 ≠ 5 :=
  (C1_zero_max_saturates 5).2.2 (by decide) (by decide)

/-- C2: a relative set-brightness command adds the signed delta to the
current percentage first and clamps the sum to [0, 100] afterwards
(lines 184-185); in token form, `+20` at 95 percent targets 100 and
`-20` at 5 percent targets 0. -/
theorem C2_clamp_after_addition :
    (∀ p d : ℤ, -32768 ≤ p + d → p + d ≤ 32767 →
        relative_target p d = max 0 (min 100 (p + d))) ∧
    target_percentage "+20".data 95 = some 100 ∧
    target_percentage "-20".data 5 = some 0 := by
  refine ⟨fun p d h1 h2 => ?_, by decide, by decide⟩
  unfold relative_target wrapI16 clamp_0_100
  omega

/-- C2 witness: the general clamp-after-addition equation applied at the
two concrete examples of the claim. -/
theorem C2_witness :
    relative_target 95 20 = max 0 (min 100 (95 + 20)) ∧
    relative_target 5 (-20) = max 0 (min 100 (5 + -20)) :=
  ⟨C2_clamp_after_addition.1 95 20 (by decide) (by decide),
   C2_clamp_after_addition.1 5 (-20) (by decide) (by decide)⟩

/-- C3: the resolver tries AMD child scan, then AMD ddc symlink, then
Intel ddc/i2c-dev, in this order, returning the first success; when all
three fail it fails with DeviceNotFound; concretely, a directory with
both an AMD-style `i2c-7` child and an Intel-style populated
`ddc/i2c-dev` (and even a ddc symlink) resolves through the AMD child
scan. -/
theorem C3_strategy_order :
    (∀ d p, amd_scan d = some p → try_strategies d = .ok p) ∧
    (∀ d p, amd_scan d = none → amd_symlink d = some p →
        try_strategies d = .ok p) ∧
    (∀ d p, amd_scan d = none → amd_symlink d = none →
        intel_subdir d = some p → try_strategies d = .ok p) ∧
    (∀ d, amd_scan d = none → amd_symlink d = none → intel_subdir d = none →
        try_strategies d = .error .DeviceNotFound) ∧
    try_strategies
        ⟨["i2c-7".data], true, some "i2c-5".data, true, ["i2c-9".data]⟩ =
      .ok "/dev/i2c-7".data := by
  refine ⟨?_, ?_, ?_, ?_, by decide⟩
  · intro d p h
    unfold try_strategies
    rw [h]
  · intro d p h1 h2
    unfold try_strategies
    rw [h1, h2]
  · intro d p h1 h2 h3
    unfold try_strategies
    rw [h1, h2, h3]
  · intro d h1 h2 h3
    unfold try_strategies
    rw [h1, h2, h3]

/-- C3 witness: the first-strategy clause applied to a concrete
directory whose second child is an i2c entry. -/
theorem C3_witness :
    try_strategies ⟨["card0".data, "i2c-4".data], false, none, false, []⟩ =
      .ok "/dev/i2c-4".data :=
  C3_strategy_order.1 _ _ (by decide)

/-- C4: any output name starting with the embedded-panel prefix `eDP` is
rejected with UnsupportedOutput regardless of the filesystem contents:
the check precedes every directory access (lines 34-37). -/
theorem C4_edp_rejected (output : List Char)
    (h : starts_with output "eDP".data = true) (drm : DrmTree) :
    get_i2c_dev_by_output output drm = .error .UnsupportedOutput := by
  unfold get_i2c_dev_by_output
  rw [if_pos h]

/-- C4 witness: `eDP-1` is rejected even when the tree contains a fully
resolvable entry for it. -/
theorem C4_witness :
    get_i2c_dev_by_output "eDP-1".data
        [("card0-eDP-1".data,
          ⟨["i2c-3".data], true, some "i2c-3".data, true, ["i2c-3".data]⟩)] =
      .error .UnsupportedOutput :=
  C4_edp_rejected _ (by decide) _

/-- C7: with maximum 64, token `50` produces raw value 32 and token
`+10` at current percentage 50 (current raw value 32) produces raw value
round-f32(60 / 100 * 64) = 38; both as isolated conversions and through
the whole set-brightness pipeline. -/
theorem C7_end_to_end :
    set_brightness_raw "50".data 0 32 0 64 = some 32 ∧
    set_brightness_raw "+10".data 0 32 0 64 = some 38 ∧
    absolute_value 50 64 = 32 ∧
    absolute_value 60 64 = 38 ∧
    percent_i16 32 64 = 50 := by
  decide

/-- C8: an explicit i2c path makes device selection return that path
unchanged, independent of the compositor-reported output and of the
whole filesystem tree: resolver and compositor query are bypassed. -/
theorem C8_explicit_path_bypasses (p out out' : List Char)
    (drm drm' : DrmTree) :
    select_i2c_path (some p) out drm = .ok p ∧
    select_i2c_path (some p) out drm = select_i2c_path (some p) out' drm' :=
  ⟨rfl, rfl⟩

/-- C9: the raw value written by set-brightness never exceeds the
monitor-reported maximum: both for any clamped target percentage fed to
the conversion of line 193, and through the whole pipeline for any
token and any 8-bit VCP reply fields. -/
theorem C9_raw_never_exceeds_max :
    (∀ (tp : ℤ) (m : ℕ), tp ≤ 100 → m ≤ 65535 → absolute_value tp m ≤ m) ∧
    (∀ (s : List Char) (sh sl mh ml r : ℕ), mh ≤ 255 → ml ≤ 255 →
        set_brightness_raw s sh sl mh ml = some r → r ≤ mh * 256 + ml) := by
  have hmain : ∀ (tp : ℤ) (m : ℕ), tp ≤ 100 → m ≤ 65535 →
      absolute_value tp m ≤ m := by
    intro tp m htp hm
    unfold absolute_value
    by_cases hneg : tp < 0
    · rw [if_pos hneg]
      exact Nat.zero_le m
    · rw [if_neg hneg]
      push_neg at hneg
      set T := tp.toNat with hT
      rcases Nat.eq_zero_or_pos T with h0 | hTpos
      · rw [h0, f32mul_round_zero_left]
        simp
      rcases Nat.eq_zero_or_pos m with hm0 | hmpos
      · subst hm0
        rw [f32mul_round_zero_right]
        simp
      obtain ⟨hl, hu⟩ := f32mul_round_bounds T 100 m hTpos (by norm_num) hmpos
      have hT100n : T ≤ 100 := by omega
      have hT100 : (T : ℚ) ≤ 100 := by exact_mod_cast hT100n
      have hm' : (0 : ℚ) < (m : ℚ) := by exact_mod_cast hmpos
      have hm65 : (m : ℚ) ≤ 65535 := by exact_mod_cast hm
      set n := f32mul_round T 100 m with hn
      have hX : (T : ℚ) / 100 * m ≤ (m : ℚ) := by
        have h1 : (T : ℚ) / 100 ≤ 1 := (div_le_one (by norm_num : (0:ℚ) < 100)).mpr hT100
        have := mul_le_mul_of_nonneg_right h1 (le_of_lt hm')
        linarith
      have hkey : (n : ℚ) < (m : ℚ) + 1 := by
        have hsq : (0 : ℚ) ≤ (1 + fErr) ^ 2 := sq_nonneg _
        have h2 := mul_le_mul_of_nonneg_right hX hsq
        have hfe : fErr = 1 / 2 ^ 24 := rfl
        rw [hfe] at h2 hu
        norm_num at h2 hu
        linarith
      have hnm : n ≤ m := by
        have : n < m + 1 := by exact_mod_cast hkey
        omega
      exact le_trans (Nat.min_le_left _ _) hnm
  refine ⟨hmain, ?_⟩
  intro s sh sl mh ml r h1 h2 hset
  unfold set_brightness_raw at hset
  obtain ⟨tp, htp, hr⟩ := Option.map_eq_some'.mp hset
  obtain ⟨_, htp100⟩ := target_percentage_mem _ _ _ htp
  have := hmain tp (mh * 256 + ml) htp100 (by omega)
  rw [← hr]
  simpa [value_to_current_and_max] using this

/-- C9 witness: the bound applied at target 100 with maximum 64, and
through the pipeline for token `50` on the (32, 64) reply. -/
theorem C9_witness :
    absolute_value 100 64 ≤ 64 ∧ 32 ≤ 0 * 256 + 64 :=
  ⟨C9_raw_never_exceeds_max.1 100 64 (by decide) (by decide),
   C9_raw_never_exceeds_max.2 "50".data 0 32 0 64 32 (by decide) (by decide)
     (by decide)⟩

/-- C10 counterexample: current 401, maximum 400 is a protocol-violating
reply with current > maximum > 0, yet the reported percentage is exactly
100, not strictly greater: rounding maps 100.25 back into range. -/
theorem C10_cex :
    (0 < 400 ∧ 400 < 401) ∧ percent_u16 401 400 = 100 ∧
    ¬ 100 < percent_u16 401 400 := by
  decide

/-- C10 amended: for maximum > 0 and current > maximum the computation
does not fail (it is total by construction) and reports at least 100;
the report is strictly above 100 whenever maximum ≤ 200, except in the
single half-way case current = 201, maximum = 200, which also exceeds
100; but in general rounding may return exactly 100 (see the
counterexample). -/
theorem C10_over_max_percentage (c m : ℕ) (hm : 0 < m) (hc : m < c) :
    100 ≤ percent_u16 c m ∧ (m ≤ 200 → 100 < percent_u16 c m) := by
  have hm' : (0 : ℚ) < (m : ℚ) := by exact_mod_cast hm
  have hc' : (m : ℚ) < (c : ℚ) := by exact_mod_cast hc
  have hcpos : 0 < c := by omega
  obtain ⟨hl, hu⟩ := f32mul_round_bounds c m 100 hcpos hm (by norm_num)
  set n := f32mul_round c m 100 with hn
  have hq1 : (1 : ℚ) + 1 / m ≤ (c : ℚ) / m := by
    rw [le_div_iff hm', add_mul, one_mul, div_mul_cancel₀ _ (ne_of_gt hm')]
    have h : m + 1 ≤ c := hc
    exact_mod_cast h
  have hperc : percent_u16 c m = min n 65535 := by
    unfold percent_u16
    rw [if_neg (by omega)]
  have hfe : fErr = 1 / 2 ^ 24 := rfl
  have hqm : (100 : ℚ) ≤ (c : ℚ) / m * 100 := by
    have h1m : (0 : ℚ) < 1 / (m : ℚ) := by positivity
    linarith
  constructor
  · -- n ≥ 100: (n : ℚ) > 99
    have hlow : (99 : ℚ) < (n : ℚ) := by
      have h2 : (100 : ℚ) * (1 - fErr) ^ 2 ≤ (c : ℚ) / m * 100 * (1 - fErr) ^ 2 :=
        mul_le_mul_of_nonneg_right hqm (sq_nonneg _)
      rw [hfe] at h2 hl
      norm_num at h2 hl
      linarith
    have : 99 < n := by exact_mod_cast hlow
    rw [hperc]
    have h65 : (100 : ℕ) ≤ 65535 := by norm_num
    omega
  · intro hm200
    by_cases htie : 200 * c = 201 * m
    · have hmc : m = 200 ∧ c = 201 := by omega
      obtain ⟨rfl, rfl⟩ := hmc
      decide
    · -- off the tie: c / m * 100 ≥ 100.5 + 1 / (2 * m) ≥ 100.5 + 1 / 400
      have hstep : (201 : ℚ) * m + 1 ≤ 200 * c := by
        have hge : 201 * m + 1 ≤ 200 * c := by
          have : 201 * m ≤ 200 * c := by nlinarith [hc, hm200]
          omega
        exact_mod_cast hge
      have hq2 : (100 : ℚ) + 1 / 2 + 1 / 400 ≤ (c : ℚ) / m * 100 := by
        rw [div_mul_eq_mul_div, le_div_iff hm']
        have hm400 : (m : ℚ) ≤ 200 := by exact_mod_cast hm200
        nlinarith
      have hlow : (100 : ℚ) < (n : ℚ) := by
        have h2 : ((100 : ℚ) + 1 / 2 + 1 / 400) * (1 - fErr) ^ 2 ≤
            (c : ℚ) / m * 100 * (1 - fErr) ^ 2 :=
          mul_le_mul_of_nonneg_right hq2 (sq_nonneg _)
        rw [hfe] at h2 hl
        norm_num at h2 hl
        linarith
      have : 100 < n := by exact_mod_cast hlow
      rw [hperc]
      omega

/-- C10 witness: the amended statement applied at current 201, maximum
100. -/
theorem C10_witness :
    100 ≤ percent_u16 201 100 ∧ (100 ≤ 200 → 100 < percent_u16 201 100) :=
  ⟨(C10_over_max_percentage 201 100 (by decide) (by decide)).1,
   fun _ => (C10_over_max_percentage 201 100 (by decide) (by decide)).2
     (by decide)⟩

/-- C5 counterexample: current 21, maximum 40 (valid reply, current ≤
maximum): the exact value is 52.5, the spec formula
round(current / maximum * 100) gives 53 (round half away from zero, as
`f32::round` defines), but the program computes 52: the two f32
roundings land the product just below the half-way point. -/
theorem C5_cex :
    percent_u16 21 40 = 52 ∧ spec_toPercentage 21 40 = 53 ∧
    (percent_u16 21 40 : ℤ) ≠ spec_toPercentage 21 40 := by
  have h1 : percent_u16 21 40 = 52 := by decide
  have h2 : spec_toPercentage 21 40 = 53 := by
    unfold spec_toPercentage specRound
    have h : ((21 : ℕ) : ℚ) / ((40 : ℕ) : ℚ) * 100 + 1 / 2 = ((53 : ℤ) : ℚ) := by
      norm_num
    rw [h, Int.floor_intCast]
  refine ⟨h1, h2, ?_⟩
  rw [h1, h2]
  decide

/-- C5 amended: for maximum > 0 and current ≤ maximum the computed
percentage lies in [0, 100] and is within 1/2 + 1/1000 of the exact
value current / maximum * 100 — that is, it is a nearest integer up to
the two f32 rounding errors; it equals the spec's
round(current / maximum * 100) except possibly when the exact value
sits at (or within float-rounding distance of) a half-integer, where
the program may round down instead (see the counterexample). -/
theorem C5_percentage_bounds (c m : ℕ) (hm : 0 < m) (hcm : c ≤ m) :
    percent_u16 c m ≤ 100 ∧
    |(percent_u16 c m : ℚ) - (c : ℚ) / m * 100| ≤ 1 / 2 + 1 / 1000 := by
  have hm' : (0 : ℚ) < (m : ℚ) := by exact_mod_cast hm
  have hperc : percent_u16 c m = min (f32mul_round c m 100) 65535 := by
    unfold percent_u16
    rw [if_neg (by omega)]
  rcases Nat.eq_zero_or_pos c with hc | hc
  · subst hc
    rw [hperc, f32mul_round_zero_left]
    norm_num
  obtain ⟨hl, hu⟩ := f32mul_round_bounds c m 100 hc hm (by norm_num)
  set n := f32mul_round c m 100 with hn
  have hq0 : (0 : ℚ) < (c : ℚ) / m := by
    have : (0 : ℚ) < (c : ℚ) := by exact_mod_cast hc
    positivity
  have hq1 : (c : ℚ) / m ≤ 1 := by
    rw [div_le_one hm']
    exact_mod_cast hcm
  have hfe : fErr = 1 / 2 ^ 24 := rfl
  have h100u : (c : ℚ) / m * 100 * (1 + fErr) ^ 2 ≤ 100 * (1 + fErr) ^ 2 := by
    have h : (c : ℚ) / m * 100 ≤ 100 := by linarith
    exact mul_le_mul_of_nonneg_right h (sq_nonneg _)
  have h100l : (c : ℚ) / m * 100 * (1 - fErr) ^ 2 ≥
      (c : ℚ) / m * 100 - 100 * (1 - (1 - fErr) ^ 2) := by
    have h : (c : ℚ) / m * 100 ≤ 100 := by linarith
    have hsq : (0 : ℚ) ≤ 1 - (1 - fErr) ^ 2 := by
      rw [hfe]
      norm_num
    nlinarith
  have hn100 : n ≤ 100 := by
    have hup : (n : ℚ) ≤ 100 * (1 + fErr) ^ 2 + 1 / 2 := by linarith
    rw [hfe] at hup
    norm_num at hup
    have : (n : ℚ) < 101 := by linarith
    have : n < 101 := by exact_mod_cast this
    omega
  have hmin : percent_u16 c m = n := by
    rw [hperc]
    omega
  refine ⟨by omega, ?_⟩
  rw [hmin, abs_le]
  have hex : (c : ℚ) / m * 100 * (1 + fErr) ^ 2 ≤
      (c : ℚ) / m * 100 + 100 * ((1 + fErr) ^ 2 - 1) := by
    have h : (c : ℚ) / m * 100 ≤ 100 := by linarith
    have hsq : (0 : ℚ) ≤ (1 + fErr) ^ 2 - 1 := by
      rw [hfe]
      norm_num
    nlinarith
  rw [hfe] at hl hu hex h100l
  norm_num at hl hu hex h100l
  constructor <;> linarith

/-- C6 counterexample: percentage 30 with maximum 1 converts to raw
value round-f32(0.3) = 0, which converts back to percentage 0 — off by
30, far outside the claimed ±1 tolerance: the claim fails for small
maxima. -/
theorem C6_cex :
    absolute_value 30 1 = 0 ∧ percent_u16 (absolute_value 30 1) 1 = 0 ∧
    ¬ ((percent_u16 (absolute_value 30 1) 1 : ℤ) - 30).natAbs ≤ 1 := by
  decide

/-- C6 amended: the absolute-set-then-read round trip reproduces the
percentage within ±1 for every maximum between 34 and 65535 (the u16
range); below 34 the quantisation error exceeds the tolerance, as the
counterexample shows. -/
theorem C6_round_trip (p : ℤ) (m : ℕ) (hp0 : 0 ≤ p) (hp1 : p ≤ 100)
    (hm : 34 ≤ m) (hm2 : m ≤ 65535) :
    ((percent_u16 (absolute_value p m) m : ℤ) - p).natAbs ≤ 1 := by
  have hm0 : 0 < m := by omega
  have hm' : (0 : ℚ) < (m : ℚ) := by exact_mod_cast hm0
  have hmne : (m : ℚ) ≠ 0 := ne_of_gt hm'
  have hm34 : (34 : ℚ) ≤ (m : ℚ) := by exact_mod_cast hm
  have hm65 : (m : ℚ) ≤ 65535 := by exact_mod_cast hm2
  set P := p.toNat with hPDef
  have hPZ : (P : ℤ) = p := Int.toNat_of_nonneg hp0
  have hPle : P ≤ 100 := by omega
  have hPq : (P : ℚ) ≤ 100 := by exact_mod_cast hPle
  have hPq0 : (0 : ℚ) ≤ (P : ℚ) := by positivity
  have habs : absolute_value p m = min (f32mul_round P 100 m) 65535 := by
    unfold absolute_value
    rw [if_neg (not_lt.mpr hp0)]
  have hfe : fErr = 1 / 2 ^ 24 := rfl
  rcases Nat.eq_zero_or_pos P with hP0 | hPpos
  · -- p = 0: raw 0, percentage 0
    have hp : p = 0 := by omega
    rw [habs, hP0, f32mul_round_zero_left]
    simp only [Nat.min_eq_left (Nat.zero_le _), hp]
    have h0 : percent_u16 0 m = 0 := by
      unfold percent_u16
      rw [if_neg (by omega), f32mul_round_zero_left]
      simp
    rw [h0]
    decide
  obtain ⟨hrl, hru⟩ := f32mul_round_bounds P 100 m hPpos (by norm_num) hm0
  push_cast at hrl hru
  set r := f32mul_round P 100 m with hrDef
  have hXP : (P : ℚ) / 100 * m * (100 / m) = (P : ℚ) := by
    field_simp
  have h100m : (0 : ℚ) < 100 / (m : ℚ) := by positivity
  have hXm : (P : ℚ) / 100 * m ≤ (m : ℚ) := by
    have h1 : (P : ℚ) / 100 ≤ 1 := by
      rw [div_le_one (by norm_num : (0 : ℚ) < 100)]
      exact hPq
    have := mul_le_mul_of_nonneg_right h1 (le_of_lt hm')
    linarith
  have hr65 : r ≤ 65535 := by
    have h2 : (P : ℚ) / 100 * m * (1 + fErr) ^ 2 ≤ (m : ℚ) * (1 + fErr) ^ 2 :=
      mul_le_mul_of_nonneg_right hXm (sq_nonneg _)
    rw [hfe] at hru h2
    norm_num at hru h2
    have hq : (r : ℚ) < 65536 := by linarith
    have : r < 65536 := by exact_mod_cast hq
    omega
  have habs2 : absolute_value p m = r := by
    rw [habs]
    omega
  rw [habs2]
  rcases Nat.eq_zero_or_pos r with hr0 | hrpos
  · -- rounded to zero: only possible for p ≤ 1
    have hp1' : p ≤ 1 := by
      rw [hr0] at hrl
      have hPm : (P : ℚ) * m ≤ 51 := by
        rw [hfe] at hrl
        norm_num at hrl
        nlinarith
      have hPm' : P * m ≤ 51 := by exact_mod_cast hPm
      have : P ≤ 1 := by nlinarith [hm, hPm']
      omega
    rw [hr0]
    have h0 : percent_u16 0 m = 0 := by
      unfold percent_u16
      rw [if_neg (by omega), f32mul_round_zero_left]
      simp
    rw [h0]
    omega
  -- main case: r ≥ 1
  obtain ⟨hnl, hnu⟩ := f32mul_round_bounds r m 100 hrpos hm0 (by norm_num)
  push_cast at hnl hnu
  set n := f32mul_round r m 100 with hnDef
  set Y : ℚ := (r : ℚ) / m * 100 with hYDef
  set W : ℚ := 50 / (m : ℚ) with hWDef
  have hW34 : W ≤ 50 / 34 := by
    rw [hWDef]
    gcongr
  have hW0 : (0 : ℚ) < W := by rw [hWDef]; positivity
  -- transfer the raw bounds to the read-back fraction
  have hYu : Y ≤ (P : ℚ) * (1 + fErr) ^ 2 + W := by
    have h := mul_le_mul_of_nonneg_right hru (le_of_lt h100m)
    calc Y = (r : ℚ) * (100 / m) := by rw [hYDef]; ring
      _ ≤ ((P : ℚ) / 100 * m * (1 + fErr) ^ 2 + 1 / 2) * (100 / m) := h
      _ = (P : ℚ) / 100 * m * (100 / m) * (1 + fErr) ^ 2 + W := by
          rw [hWDef]
          field_simp
          ring
      _ = (P : ℚ) * (1 + fErr) ^ 2 + W := by rw [hXP]
  have hYl : (P : ℚ) * (1 - fErr) ^ 2 - W ≤ Y := by
    have h := mul_le_mul_of_nonneg_right hrl (le_of_lt h100m)
    calc (P : ℚ) * (1 - fErr) ^ 2 - W
        = ((P : ℚ) / 100 * m * (1 - fErr) ^ 2 - 1 / 2) * (100 / m) := by
          rw [← hXP, hWDef]
          field_simp
          ring
      _ ≤ (r : ℚ) * (100 / m) := h
      _ = Y := by rw [hYDef]; ring
  -- second rounding error on top: all products expanded explicitly
  have hsqU : (0 : ℚ) ≤ (1 + fErr) ^ 2 := sq_nonneg _
  have hsqL : (0 : ℚ) ≤ (1 - fErr) ^ 2 := sq_nonneg _
  have hprodU : Y * (1 + fErr) ^ 2 ≤
      (P : ℚ) * ((1 + fErr) ^ 2) ^ 2 + W * (1 + fErr) ^ 2 := by
    have h := mul_le_mul_of_nonneg_right hYu hsqU
    calc Y * (1 + fErr) ^ 2 ≤ ((P : ℚ) * (1 + fErr) ^ 2 + W) * (1 + fErr) ^ 2 := h
      _ = (P : ℚ) * ((1 + fErr) ^ 2) ^ 2 + W * (1 + fErr) ^ 2 := by ring
  have hprodL : (P : ℚ) * ((1 - fErr) ^ 2) ^ 2 - W * (1 - fErr) ^ 2 ≤
      Y * (1 - fErr) ^ 2 := by
    have h := mul_le_mul_of_nonneg_right hYl hsqL
    calc (P : ℚ) * ((1 - fErr) ^ 2) ^ 2 - W * (1 - fErr) ^ 2
        = ((P : ℚ) * (1 - fErr) ^ 2 - W) * (1 - fErr) ^ 2 := by ring
      _ ≤ Y * (1 - fErr) ^ 2 := h
  -- bound the constant-coefficient products of P
  have hPK4u : (P : ℚ) * ((1 + fErr) ^ 2) ^ 2 ≤
      (P : ℚ) + 100 * (((1 + fErr) ^ 2) ^ 2 - 1) := by
    have hge : (0 : ℚ) ≤ ((1 + fErr) ^ 2) ^ 2 - 1 := by
      rw [hfe]
      norm_num
    have hmul := mul_le_mul_of_nonneg_right hPq hge
    ring_nf at hmul ⊢
    linarith
  have hPK4l : (P : ℚ) - 100 * (1 - ((1 - fErr) ^ 2) ^ 2) ≤
      (P : ℚ) * ((1 - fErr) ^ 2) ^ 2 := by
    have hge : (0 : ℚ) ≤ 1 - ((1 - fErr) ^ 2) ^ 2 := by
      rw [hfe]
      norm_num
    have hmul := mul_le_mul_of_nonneg_right hPq hge
    ring_nf at hmul ⊢
    linarith
  have hWK2u : W * (1 + fErr) ^ 2 ≤ (50 / 34 : ℚ) * (1 + fErr) ^ 2 :=
    mul_le_mul_of_nonneg_right hW34 hsqU
  have hWK2l : W * (1 - fErr) ^ 2 ≤ W := by
    have hle : (1 - fErr) ^ 2 ≤ 1 := by
      rw [hfe]
      norm_num
    have hmul := mul_le_mul_of_nonneg_left hle (le_of_lt hW0)
    linarith
  -- numeric margins
  have hnumU : (100 : ℚ) * (((1 + fErr) ^ 2) ^ 2 - 1) +
      (50 / 34 : ℚ) * (1 + fErr) ^ 2 + 1 / 2 < 2 := by
    rw [hfe]
    norm_num
  have hnumL : (100 : ℚ) * (1 - ((1 - fErr) ^ 2) ^ 2) + 50 / 34 + 1 / 2 < 2 := by
    rw [hfe]
    norm_num
  have hup : (n : ℚ) < (P : ℚ) + 2 := by linarith [hnu, hprodU, hPK4u, hWK2u, hnumU]
  have hlo : (P : ℚ) - 2 < (n : ℚ) := by
    linarith [hnl, hprodL, hPK4l, hWK2l, hnumL, hW34]
  have hn65 : n ≤ 65535 := by
    have hq : (n : ℚ) < 65536 := by linarith
    have : n < 65536 := by exact_mod_cast hq
    omega
  have hperc : percent_u16 r m = n := by
    unfold percent_u16
    rw [if_neg (by omega)]
    omega
  rw [hperc]
  have hupZ : (n : ℤ) < (P : ℤ) + 2 := by exact_mod_cast hup
  have hloZ : (P : ℤ) - 2 < (n : ℤ) := by exact_mod_cast hlo
  omega

/-- C5 witness: the amended bounds applied at current 32, maximum 64. -/
theorem C5_witness :
    percent_u16 32 64 ≤ 100 ∧
    |(percent_u16 32 64 : ℚ) - ((32 : ℕ) : ℚ) / ((64 : ℕ) : ℚ) * 100| ≤
      1 / 2 + 1 / 1000 :=
  C5_percentage_bounds 32 64 (by decide) (by decide)

/-- C6 witness: the amended round trip applied at percentage 37 with
maximum 64. -/
theorem C6_witness :
    ((percent_u16 (absolute_value 37 64) 64 : ℤ) - 37).natAbs ≤ 1 :=
  C6_round_trip 37 64 (by decide) (by decide) (by decide) (by decide)
